import Mathlib

/-!
Shallow embedding of the `u128` C++ header: a 128-bit unsigned integer held
as two 64-bit limbs, with shifts, comparisons, addition, multiplication
(64×64→128 portable and substrate-dispatched), and hexadecimal formatting.
Machine words are modelled as `Nat` with explicit `% 2^64` wherever the C++
`uint64_t` arithmetic wraps.
-/

set_option maxHeartbeats 1000000

/-- The struct `u128`: lo and hi 64-bit limbs of a 128-bit unsigned integer. -/
structure u128 where
  lo : Nat
  hi : Nat
deriving DecidableEq

/-- Numeric value of a `u128`: `hi * 2^64 + lo`. -/
def u128.toNat (v : u128) : Nat := v.hi * 2 ^ 64 + v.lo

/-- The explicit constructor `u128(u64 lo_)`: hi limb is zero. -/
def u128.ofU64 (w : Nat) : u128 := ⟨w, 0⟩

/-- `operator\x7b<<=\x7d` from the source: guard `nbits == 0`, saturate at
`nbits >= 128`, move the low limb up when `nbits >= 64`, then shift the
remainder, OR-ing the bits carried across the limb boundary. -/
def u128.shl (v : u128) (nbits : Nat) : u128 :=
  if nbits = 0 then v
  else if 128 ≤ nbits then ⟨0, 0⟩
  else
    let s : u128 := if 64 ≤ nbits then ⟨0, v.lo⟩ else v
    let n : Nat := if 64 ≤ nbits then nbits - 64 else nbits
    if 0 < n then
      ⟨(s.lo <<< n) % 2 ^ 64, ((s.hi <<< n) % 2 ^ 64) ||| (s.lo >>> (64 - n))⟩
    else s

/-- `operator>>=` from the source: mirror image of the left shift. -/
def u128.shr (v : u128) (nbits : Nat) : u128 :=
  if nbits = 0 then v
  else if 128 ≤ nbits then ⟨0, 0⟩
  else
    let s : u128 := if 64 ≤ nbits then ⟨v.hi, 0⟩ else v
    let n : Nat := if 64 ≤ nbits then nbits - 64 else nbits
    if 0 < n then
      ⟨(s.lo >>> n) ||| ((s.hi <<< (64 - n)) % 2 ^ 64), s.hi >>> n⟩
    else s

/-- `operator==`: pairwise limb equality. -/
def u128.beq (a o : u128) : Bool := a.lo == o.lo && a.hi == o.hi

/-- `operator!=`: negation of `==`. -/
def u128.bne (a o : u128) : Bool := !(u128.beq a o)

/-- `operator<`: hi limbs first, ties broken by lo limbs. -/
def u128.blt (a o : u128) : Bool :=
  decide (a.hi < o.hi) || (a.hi == o.hi && decide (a.lo < o.lo))

/-- `operator<=`: `!(o < *this)`. -/
def u128.ble (a o : u128) : Bool := !(u128.blt o a)

/-- `operator>`: `o < *this`. -/
def u128.bgt (a o : u128) : Bool := u128.blt o a

/-- `operator>=`: `!(*this < o)`. -/
def u128.bge (a o : u128) : Bool := !(u128.blt a o)

/-- `operator+=(const u128&)`: limb-wise addition with carry; the carry test
`lo < other.lo` uses the already-updated low limb. -/
def u128.add (a other : u128) : u128 :=
  let lo := (a.lo + other.lo) % 2 ^ 64
  let hi := (a.hi + ((other.hi + (if lo < other.lo then 1 else 0)) % 2 ^ 64)) % 2 ^ 64
  ⟨lo, hi⟩

/-- `operator+=(const u64)`: add a bare 64-bit word. -/
def u128.addWord (a : u128) (other : Nat) : u128 :=
  let lo := (a.lo + other) % 2 ^ 64
  let hi := (a.hi + (if lo < other then 1 else 0)) % 2 ^ 64
  ⟨lo, hi⟩

/-- friend `operator+(u64, const u128&)`: `u128(a) += b`. -/
def u128.wordAdd (a : Nat) (b : u128) : u128 := u128.add ⟨a, 0⟩ b

/-- `mul64_portable`: 64×64→128 multiply using only 64-bit arithmetic.
Splits each operand into 32-bit halves via `x & 0xFFFFFFFF` and `x >> 32`,
forms the four partial products, and propagates carries exactly as the
source does; every `uint64_t` operation wraps modulo `2^64`. -/
def mul64_portable (a b : Nat) : u128 :=
  let LO := fun x : Nat => x &&& 0xFFFFFFFF
  let HI := fun x : Nat => x >>> 32
  let p00 := (LO a * LO b) % 2 ^ 64
  let p01 := (LO a * HI b) % 2 ^ 64
  let p10 := (HI a * LO b) % 2 ^ 64
  let p11 := (HI a * HI b) % 2 ^ 64
  let x := ((HI p00 + LO p01) % 2 ^ 64 + LO p10) % 2 ^ 64
  let y := (((HI p01 + HI p10) % 2 ^ 64 + LO p11) % 2 ^ 64 + HI x) % 2 ^ 64
  ⟨LO p00 ||| ((x <<< 32) % 2 ^ 64), (y + ((HI p11 <<< 32) % 2 ^ 64)) % 2 ^ 64⟩

/-- Modelled from the spec: the MSVC `_umul128` intrinsic and the GCC/Clang
`unsigned __int128` widening multiply, neither of which is code under src/,
both return the exact 128-bit product of two 64-bit operands, low limb
first. -/
def mul64_native (a b : Nat) : u128 := ⟨a * b % 2 ^ 64, a * b / 2 ^ 64⟩

/-- The three build-time substrates `mul64` can dispatch to. -/
inductive Substrate where
  | msvc : Substrate
  | native128 : Substrate
  | portable : Substrate

/-- `mul64` as dispatched: the `_MSC_VER` branch uses `_umul128`, the
`__SIZEOF_INT128__` branch uses `unsigned __int128`, and the final branch
falls back to `mul64_portable`. -/
def mul64_impl : Substrate → Nat → Nat → u128
  | Substrate.msvc, a, b => mul64_native a b
  | Substrate.native128, a, b => mul64_native a b
  | Substrate.portable, a, b => mul64_portable a b

/-- `mul64` on this build configuration (a GCC/Clang-style compiler selects
the `__SIZEOF_INT128__` branch); all substrates are proven to agree. -/
def mul64 (a b : Nat) : u128 := mul64_impl Substrate.native128 a b

/-- `operator*(const u64)`: `p_lo + (p_hi << 64)`, discarding the upper bits
of `p_hi`. -/
def u128.mulWord (a : u128) (other : Nat) : u128 :=
  let p_lo := mul64 a.lo other
  let p_hi := mul64 a.hi other
  u128.add p_lo (u128.shl p_hi 64)

/-- `operator*(const u128&)`: three 64×64 partial products accumulated with
carry; the `hi*hi` term is discarded. -/
def u128.mul (a other : u128) : u128 :=
  let res := mul64 a.lo other.lo
  let res1 := u128.add res (u128.shl (mul64 a.lo other.hi) 64)
  u128.add res1 (u128.shl (mul64 a.hi other.lo) 64)

/-- friend `operator*(u64, const u128&)`: `b * a`. -/
def u128.wordMul (a : Nat) (b : u128) : u128 := u128.mulWord b a

/-- One lowercase hexadecimal digit, as `std::hex` renders it. -/
def hexChar (d : Nat) : Char :=
  if d < 10 then Char.ofNat (48 + d) else Char.ofNat (87 + d)

/-- A 64-bit word rendered as 16 zero-padded lowercase hexadecimal digits,
as `std::hex << std::setfill('0') << std::setw(16)` renders a `uint64_t`. -/
def hexPad16 (x : Nat) : String :=
  String.mk ((List.range 16).map (fun i => hexChar (x / 16 ^ (15 - i) % 16)))

/-- `to_string_hex`: the literal prefix `0x`, then hi, then lo. -/
def u128.to_string_hex (v : u128) : String :=
  "0x" ++ hexPad16 v.hi ++ hexPad16 v.lo

/-- friend `operator<<(std::ostream&, const u128&)`: the text appended to
the stream is `v.to_string_hex()`. -/
def u128.ostreamWrite (v : u128) : String := u128.to_string_hex v

/-! ## Helper lemmas -/

lemma and_mask32 (x : Nat) : x &&& 0xFFFFFFFF = x % 2 ^ 32 := by
  have h := Nat.and_pow_two_sub_one_eq_mod x 32
  norm_num at h ⊢
  exact h

lemma or_eq_add (n a b : Nat) (ha : a % 2 ^ n = 0) (hb : b < 2 ^ n) :
    a ||| b = a + b := by
  obtain ⟨c, hc⟩ := Nat.dvd_of_mod_eq_zero ha
  subst hc
  exact (Nat.mul_add_lt_is_or hb c).symm

lemma or_eq_add_left (n a b : Nat) (ha : a < 2 ^ n) (hb : b % 2 ^ n = 0) :
    a ||| b = a + b := by
  rw [Nat.lor_comm, or_eq_add n b a hb ha, Nat.add_comm]

lemma or32 (u v : Nat) :
    u % 2 ^ 32 ||| v * 2 ^ 32 % 2 ^ 64 = u % 2 ^ 32 + v * 2 ^ 32 % 2 ^ 64 := by
  apply or_eq_add_left 32
  · omega
  · omega

lemma u128.ext (x y : u128) (h1 : x.lo = y.lo) (h2 : x.hi = y.hi) : x = y := by
  cases x
  cases y
  simp_all

/-- Core correctness of the portable multiply: for 64-bit operands the two
returned limbs encode exactly `a * b`, and each limb fits in 64 bits. -/
lemma mul64_portable_spec (a b : Nat) (ha : a < 2 ^ 64) (hb : b < 2 ^ 64) :
    (mul64_portable a b).toNat = a * b ∧
      (mul64_portable a b).lo < 2 ^ 64 ∧ (mul64_portable a b).hi < 2 ^ 64 := by
  obtain ⟨a1, a0, ha0, rfl⟩ : ∃ q r, r < 2 ^ 32 ∧ a = 2 ^ 32 * q + r :=
    ⟨a / 2 ^ 32, a % 2 ^ 32, by omega, by omega⟩
  obtain ⟨b1, b0, hb0, rfl⟩ : ∃ q r, r < 2 ^ 32 ∧ b = 2 ^ 32 * q + r :=
    ⟨b / 2 ^ 32, b % 2 ^ 32, by omega, by omega⟩
  have ha1 : a1 < 2 ^ 32 := by omega
  have hb1 : b1 < 2 ^ 32 := by omega
  have hma : (2 ^ 32 * a1 + a0) % 2 ^ 32 = a0 := by omega
  have hda : (2 ^ 32 * a1 + a0) / 2 ^ 32 = a1 := by omega
  have hmb : (2 ^ 32 * b1 + b0) % 2 ^ 32 = b0 := by omega
  have hdb : (2 ^ 32 * b1 + b0) / 2 ^ 32 = b1 := by omega
  have hkey : (2 ^ 32 * a1 + a0) * (2 ^ 32 * b1 + b0) =
      a1 * b1 * 2 ^ 64 + a0 * b1 * 2 ^ 32 + a1 * b0 * 2 ^ 32 + a0 * b0 := by
    ring
  have h00 : a0 * b0 ≤ 4294967295 * 4294967295 :=
    Nat.mul_le_mul (by omega) (by omega)
  have h01 : a0 * b1 ≤ 4294967295 * 4294967295 :=
    Nat.mul_le_mul (by omega) (by omega)
  have h10 : a1 * b0 ≤ 4294967295 * 4294967295 :=
    Nat.mul_le_mul (by omega) (by omega)
  have h11 : a1 * b1 ≤ 4294967295 * 4294967295 :=
    Nat.mul_le_mul (by omega) (by omega)
  simp only [mul64_portable, u128.toNat, and_mask32, Nat.shiftRight_eq_div_pow,
    Nat.shiftLeft_eq, hma, hda, hmb, hdb, or32, hkey]
  omega

/-- The portable multiply coincides limb-for-limb with the exact widening
multiply of the native substrates. -/
lemma mul64_portable_eq_native (a b : Nat) (ha : a < 2 ^ 64) (hb : b < 2 ^ 64) :
    mul64_portable a b = mul64_native a b := by
  obtain ⟨h1, h2, h3⟩ := mul64_portable_spec a b ha hb
  simp only [u128.toNat] at h1
  apply u128.ext
  · simp only [mul64_native]
    omega
  · simp only [mul64_native]
    omega

/-! ## Claim theorems -/

/-- C1: for all 64-bit unsigned integers `a` and `b`, `mul64_portable a b`
returns the exact 128-bit product — the limbs satisfy
`hi * 2^64 + lo = a * b` — including the fixed boundary cases `(0,0)`,
`(1,1)`, `(1, 2^64-1)`, `(2^64-1, 1)`, `(2^64-1, 2^64-1) -> (1, 2^64-2)`,
`(2^32+1, 2^32+1)`, and the adjacent-to-max pairs `(2^64-2, 2^64-3)` and
`(2^64-3, 2^64-2)`, which agree with each other and with the oracle. -/
theorem C1_mul64_portable_exact (a b : Nat) (ha : a < 2 ^ 64) (hb : b < 2 ^ 64) :
    (mul64_portable a b).hi * 2 ^ 64 + (mul64_portable a b).lo = a * b ∧
    mul64_portable 0 0 = ⟨0, 0⟩ ∧
    mul64_portable 1 1 = ⟨1, 0⟩ ∧
    mul64_portable 1 (2 ^ 64 - 1) = ⟨2 ^ 64 - 1, 0⟩ ∧
    mul64_portable (2 ^ 64 - 1) 1 = ⟨2 ^ 64 - 1, 0⟩ ∧
    mul64_portable (2 ^ 64 - 1) (2 ^ 64 - 1) = ⟨1, 2 ^ 64 - 2⟩ ∧
    (mul64_portable (2 ^ 32 + 1) (2 ^ 32 + 1)).toNat =
      (2 ^ 32 + 1) * (2 ^ 32 + 1) ∧
    mul64_portable (2 ^ 64 - 2) (2 ^ 64 - 3) =
      mul64_portable (2 ^ 64 - 3) (2 ^ 64 - 2) ∧
    (mul64_portable (2 ^ 64 - 2) (2 ^ 64 - 3)).toNat =
      (2 ^ 64 - 2) * (2 ^ 64 - 3) := by
  refine ⟨?_, ?_, ?_, ?_, ?_, ?_, ?_, ?_, ?_⟩
  · have h := (mul64_portable_spec a b ha hb).1
    simpa [u128.toNat] using h
  · decide
  · decide
  · decide
  · decide
  · decide
  · decide
  · decide
  · decide

/-- Witness for C1 at the all-ones boundary input. -/
theorem C1_mul64_portable_exact_witness :
    (mul64_portable (2 ^ 64 - 1) (2 ^ 64 - 1)).hi * 2 ^ 64 +
      (mul64_portable (2 ^ 64 - 1) (2 ^ 64 - 1)).lo =
        (2 ^ 64 - 1) * (2 ^ 64 - 1) :=
  (C1_mul64_portable_exact (2 ^ 64 - 1) (2 ^ 64 - 1) (by norm_num)
    (by norm_num)).1

/-- C2: `mul64` returns the same 128-bit value on every substrate the build
can select — MSVC `_umul128`, native `unsigned __int128`, or the portable
fallback: each agrees limb-for-limb with `mul64_portable` on all 64-bit
inputs, and `mul64` itself agrees with whichever substrate is chosen. -/
theorem C2_mul64_substrates_agree (s : Substrate) (a b : Nat)
    (ha : a < 2 ^ 64) (hb : b < 2 ^ 64) :
    mul64_impl s a b = mul64_portable a b ∧ mul64 a b = mul64_impl s a b := by
  have hn := mul64_portable_eq_native a b ha hb
  cases s <;> constructor <;>
    simp only [mul64, mul64_impl, hn]

/-- Witness for C2 on the MSVC substrate at a concrete input. -/
theorem C2_mul64_substrates_agree_witness :
    mul64_impl Substrate.msvc 7 (2 ^ 64 - 9) = mul64_portable 7 (2 ^ 64 - 9) ∧
      mul64 7 (2 ^ 64 - 9) = mul64_impl Substrate.msvc 7 (2 ^ 64 - 9) :=
  C2_mul64_substrates_agree Substrate.msvc 7 (2 ^ 64 - 9) (by norm_num)
    (by norm_num)

/-- C5: `a + b` (and `a + w` for a bare 64-bit word, which behaves as a
value with zero high limb) returns the numeric sum reduced modulo `2^128`;
the carry into the high limb is 1 exactly when the low-limb addition wraps,
so `value(2^64-1, 0) + value(1, 0) = value(0, 1)`. -/
theorem C5_add_mod (a b : u128) (w : Nat)
    (halo : a.lo < 2 ^ 64) (hahi : a.hi < 2 ^ 64)
    (hblo : b.lo < 2 ^ 64) (hbhi : b.hi < 2 ^ 64) (hw : w < 2 ^ 64) :
    (u128.add a b).toNat = (a.toNat + b.toNat) % 2 ^ 128 ∧
    (u128.add a b).lo = (a.lo + b.lo) % 2 ^ 64 ∧
    (u128.add a b).hi =
      (a.hi + b.hi + (if 2 ^ 64 ≤ a.lo + b.lo then 1 else 0)) % 2 ^ 64 ∧
    (u128.addWord a w).toNat = (a.toNat + w) % 2 ^ 128 ∧
    u128.addWord a w = u128.add a ⟨w, 0⟩ ∧
    u128.wordAdd w b = u128.add ⟨w, 0⟩ b := by
  refine ⟨?_, ?_, ?_, ?_, ?_, rfl⟩
  · simp only [u128.add, u128.toNat]
    split_ifs <;> omega
  · simp only [u128.add]
  · simp only [u128.add]
    split_ifs <;> omega
  · simp only [u128.addWord, u128.toNat]
    split_ifs <;> omega
  · apply u128.ext <;> simp only [u128.addWord, u128.add] <;>
      split_ifs <;> omega

/-- Witness for C5: the carry propagates into the high limb. -/
theorem C5_add_mod_witness :
    (u128.add ⟨2 ^ 64 - 1, 0⟩ ⟨1, 0⟩).toNat =
      ((u128.mk (2 ^ 64 - 1) 0).toNat + (u128.mk 1 0).toNat) % 2 ^ 128 ∧
    u128.add ⟨2 ^ 64 - 1, 0⟩ ⟨1, 0⟩ = ⟨0, 1⟩ :=
  ⟨(C5_add_mod ⟨2 ^ 64 - 1, 0⟩ ⟨1, 0⟩ 5 (by decide) (by decide) (by decide)
      (by decide) (by decide)).1, by decide⟩

/-- C6: for every value and every shift count of at least 128, both shifts
yield the zero value; there is no upper-bound precondition on the count. -/
theorem C6_shift_saturation (v : u128) (n : Nat) (h : 128 ≤ n) :
    u128.shl v n = ⟨0, 0⟩ ∧ u128.shr v n = ⟨0, 0⟩ := by
  have hn : n ≠ 0 := by omega
  constructor <;> simp [u128.shl, u128.shr, hn, h]

/-- Witness for C6 at count 200. -/
theorem C6_shift_saturation_witness :
    u128.shl ⟨5, 7⟩ 200 = ⟨0, 0⟩ ∧ u128.shr ⟨5, 7⟩ 200 = ⟨0, 0⟩ :=
  C6_shift_saturation ⟨5, 7⟩ 200 (by norm_num)

/-- C7: left-shifting the value one by exactly 64 bits moves the low limb
into the high limb — the identity checked by the build-time assertion,
stated with the source's `==`. -/
theorem C7_shift_64_assert :
    u128.beq (u128.shl (u128.ofU64 1) 64) ⟨0, 1⟩ = true ∧
      u128.shl (u128.ofU64 1) 64 = ⟨0, 1⟩ := by
  decide

/-- C8: `==` is pairwise limb equality, `<` is lexicographic on `(hi, lo)`
and equivalently numeric comparison, and `!=`, `<=`, `>`, `>=` are
consistent with those two. -/
theorem C8_comparisons (a b : u128)
    (halo : a.lo < 2 ^ 64) (hahi : a.hi < 2 ^ 64)
    (hblo : b.lo < 2 ^ 64) (hbhi : b.hi < 2 ^ 64) :
    (u128.beq a b = true ↔ a.lo = b.lo ∧ a.hi = b.hi) ∧
    (u128.blt a b = true ↔ a.hi < b.hi ∨ (a.hi = b.hi ∧ a.lo < b.lo)) ∧
    (u128.blt a b = true ↔ a.toNat < b.toNat) ∧
    (u128.bne a b = true ↔ ¬(a.lo = b.lo ∧ a.hi = b.hi)) ∧
    (u128.ble a b = true ↔ a.toNat ≤ b.toNat) ∧
    (u128.bgt a b = true ↔ b.toNat < a.toNat) ∧
    (u128.bge a b = true ↔ b.toNat ≤ a.toNat) := by
  refine ⟨?_, ?_, ?_, ?_, ?_, ?_, ?_⟩ <;>
    simp only [u128.beq, u128.bne, u128.blt, u128.ble, u128.bgt, u128.bge,
      u128.toNat, Bool.not_eq_true', Bool.and_eq_true, Bool.or_eq_true,
      beq_iff_eq, decide_eq_true_eq, Bool.and_eq_false_iff,
      Bool.or_eq_false_iff, decide_eq_false_iff_not, beq_eq_false_iff_ne,
      ne_eq] <;>
    omega

/-- Witness for C8: `value(0, 1) > value(2^64-1, 0)` numerically. -/
theorem C8_comparisons_witness :
    u128.bgt ⟨0, 1⟩ ⟨2 ^ 64 - 1, 0⟩ = true ↔
      (u128.mk (2 ^ 64 - 1) 0).toNat < (u128.mk 0 1).toNat :=
  (C8_comparisons ⟨0, 1⟩ ⟨2 ^ 64 - 1, 0⟩ (by decide) (by decide) (by decide)
    (by decide)).2.2.2.2.2.1

/-! ## Shift arithmetic helpers -/

lemma pow_pair (a b : Nat) (hab : a + b = 64) :
    2 ^ b * 2 ^ a = (2 : Nat) ^ 64 := by
  rw [← pow_add]
  congr 1
  omega

lemma mod_mul_pow_bound (x a b : Nat) (hab : a + b = 64) :
    x % 2 ^ b * 2 ^ a + 2 ^ a ≤ 2 ^ 64 := by
  have hpw := pow_pair a b hab
  have hlt : x % 2 ^ b < 2 ^ b := Nat.mod_lt _ (pow_pos (by norm_num) _)
  have t1 : (x % 2 ^ b + 1) * 2 ^ a ≤ 2 ^ b * 2 ^ a :=
    Nat.mul_le_mul (by omega) (le_refl _)
  have t2 : (x % 2 ^ b + 1) * 2 ^ a = x % 2 ^ b * 2 ^ a + 2 ^ a := by ring
  omega

lemma mul_mod_pow_split (x a b : Nat) (hab : a + b = 64) :
    x * 2 ^ a % 2 ^ 64 = x % 2 ^ b * 2 ^ a := by
  have hpw := pow_pair a b hab
  have exp0 : x * 2 ^ a = x / 2 ^ b * (2 ^ b * 2 ^ a) + x % 2 ^ b * 2 ^ a := by
    conv_lhs => rw [show x = 2 ^ b * (x / 2 ^ b) + x % 2 ^ b from
      (Nat.div_add_mod x (2 ^ b)).symm]
    ring
  rw [hpw] at exp0
  have hb := mod_mul_pow_bound x a b hab
  have hpos : 0 < (2 : Nat) ^ a := pow_pos (by norm_num) a
  omega

lemma div_pow_lt (x a b : Nat) (hx : x < 2 ^ 64) (hab : a + b = 64) :
    x / 2 ^ a < 2 ^ b := by
  apply Nat.div_lt_of_lt_mul
  have := pow_pair b a (by omega)
  omega

lemma mul_mod_dvd_pow (x a : Nat) (ha : a ≤ 64) :
    x * 2 ^ a % 2 ^ 64 % 2 ^ a = 0 := by
  rw [Nat.mod_mod_of_dvd _ (pow_dvd_pow 2 ha)]
  exact Nat.mul_mod_left x (2 ^ a)

/-- In-range left shift: for `n < 128` the shifted value is the numeric
value times `2^n`, reduced modulo `2^128`. -/
lemma shl_toNat (L H n : Nat) (hL : L < 2 ^ 64) (hH : H < 2 ^ 64)
    (hn : n < 128) :
    (u128.shl ⟨L, H⟩ n).toNat = (H * 2 ^ 64 + L) * 2 ^ n % 2 ^ 128 := by
  have hpos : 0 < (2 : Nat) ^ n := pow_pos (by norm_num) n
  by_cases h0 : n = 0
  · subst h0
    simp [u128.shl, u128.toNat]
    omega
  by_cases h64 : n < 64
  · have hc1 : ¬(128 ≤ n) := by omega
    have hc2 : ¬(64 ≤ n) := by omega
    have hc3 : 0 < n := by omega
    simp only [u128.shl, h0, hc1, hc2, hc3, if_false, if_true, ite_false,
      ite_true, if_neg, Nat.shiftLeft_eq, Nat.shiftRight_eq_div_pow,
      u128.toNat]
    rw [or_eq_add n _ _ (mul_mod_dvd_pow H n (by omega))
      (div_pow_lt L (64 - n) n hL (by omega))]
    rw [mul_mod_pow_split H n (64 - n) (by omega),
      mul_mod_pow_split L n (64 - n) (by omega)]
    have hpw := pow_pair n (64 - n) (by omega)
    have exp : (H * 2 ^ 64 + L) * 2 ^ n =
        H / 2 ^ (64 - n) * (2 ^ (64 - n) * 2 ^ n) * 2 ^ 64 +
          H % 2 ^ (64 - n) * 2 ^ n * 2 ^ 64 +
          L / 2 ^ (64 - n) * (2 ^ (64 - n) * 2 ^ n) +
          L % 2 ^ (64 - n) * 2 ^ n := by
      conv_lhs => rw [show H = 2 ^ (64 - n) * (H / 2 ^ (64 - n)) +
          H % 2 ^ (64 - n) from (Nat.div_add_mod H (2 ^ (64 - n))).symm,
        show L = 2 ^ (64 - n) * (L / 2 ^ (64 - n)) + L % 2 ^ (64 - n) from
          (Nat.div_add_mod L (2 ^ (64 - n))).symm]
      ring
    rw [hpw] at exp
    have hbH := mod_mul_pow_bound H n (64 - n) (by omega)
    have hbL := mod_mul_pow_bound L n (64 - n) (by omega)
    have hcb : L / 2 ^ (64 - n) < 2 ^ n :=
      div_pow_lt L (64 - n) n hL (by omega)
    omega
  · have hc1 : ¬(128 ≤ n) := by omega
    have hc2 : 64 ≤ n := by omega
    by_cases h64e : n = 64
    · subst h64e
      simp [u128.shl, u128.toNat]
      omega
    · have hc4 : 0 < n - 64 := by omega
      simp only [u128.shl, h0, hc1, hc2, hc4, if_false, if_true, ite_false,
        ite_true, if_neg, Nat.zero_shiftRight, Nat.or_zero,
        Nat.shiftLeft_eq, Nat.zero_mul, Nat.zero_mod, u128.toNat]
      rw [mul_mod_pow_split L (n - 64) (64 - (n - 64)) (by omega)]
      have hpw := pow_pair (n - 64) (64 - (n - 64)) (by omega)
      have exp : (H * 2 ^ 64 + L) * 2 ^ n =
          H * 2 ^ (n - 64) * (2 ^ 64 * 2 ^ 64) +
            L / 2 ^ (64 - (n - 64)) *
              (2 ^ (64 - (n - 64)) * 2 ^ (n - 64)) * 2 ^ 64 +
            L % 2 ^ (64 - (n - 64)) * 2 ^ (n - 64) * 2 ^ 64 := by
        conv_lhs => rw [show (2 : Nat) ^ n = 2 ^ (n - 64) * 2 ^ 64 from by
            rw [← pow_add]; congr 1; omega,
          show L = 2 ^ (64 - (n - 64)) * (L / 2 ^ (64 - (n - 64))) +
            L % 2 ^ (64 - (n - 64)) from
            (Nat.div_add_mod L (2 ^ (64 - (n - 64)))).symm]
        ring
      rw [hpw] at exp
      have hbL := mod_mul_pow_bound L (n - 64) (64 - (n - 64)) (by omega)
      have hp2 : 0 < (2 : Nat) ^ (n - 64) := pow_pos (by norm_num) _
      omega

/-- In-range right shift: for `n < 128` the shifted value is the floor of
the numeric value divided by `2^n`. -/
lemma shr_toNat (L H n : Nat) (hL : L < 2 ^ 64) (hH : H < 2 ^ 64)
    (hn : n < 128) :
    (u128.shr ⟨L, H⟩ n).toNat = (H * 2 ^ 64 + L) / 2 ^ n := by
  have hpos : 0 < (2 : Nat) ^ n := pow_pos (by norm_num) n
  by_cases h0 : n = 0
  · subst h0
    simp [u128.shr, u128.toNat]
  by_cases h64 : n < 64
  · have hc1 : ¬(128 ≤ n) := by omega
    have hc2 : ¬(64 ≤ n) := by omega
    have hc3 : 0 < n := by omega
    simp only [u128.shr, h0, hc1, hc2, hc3, if_false, if_true, ite_false,
      ite_true, if_neg, Nat.shiftLeft_eq, Nat.shiftRight_eq_div_pow,
      u128.toNat]
    rw [or_eq_add_left (64 - n) _ _ (div_pow_lt L n (64 - n) hL (by omega))
      (mul_mod_dvd_pow H (64 - n) (by omega))]
    rw [mul_mod_pow_split H (64 - n) (64 - (64 - n)) (by omega),
      show 64 - (64 - n) = n from by omega]
    have hpw := pow_pair (64 - n) n (by omega)
    have exp0 : 2 ^ n * (H / 2 ^ n * 2 ^ 64 + H % 2 ^ n * 2 ^ (64 - n) +
          L / 2 ^ n) + L % 2 ^ n =
        2 ^ n * (H / 2 ^ n) * 2 ^ 64 + H % 2 ^ n * (2 ^ n * 2 ^ (64 - n)) +
          (2 ^ n * (L / 2 ^ n) + L % 2 ^ n) := by
      ring
    rw [hpw] at exp0
    have exp1 : H * 2 ^ 64 + L =
        2 ^ n * (H / 2 ^ n) * 2 ^ 64 + H % 2 ^ n * 2 ^ 64 +
          (2 ^ n * (L / 2 ^ n) + L % 2 ^ n) := by
      conv_lhs => rw [show H = 2 ^ n * (H / 2 ^ n) + H % 2 ^ n from
          (Nat.div_add_mod H (2 ^ n)).symm,
        show L = 2 ^ n * (L / 2 ^ n) + L % 2 ^ n from
          (Nat.div_add_mod L (2 ^ n)).symm]
      ring
    rw [exp1.trans exp0.symm, Nat.mul_add_div hpos,
      Nat.div_eq_of_lt (Nat.mod_lt L hpos)]
    omega
  · have hc1 : ¬(128 ≤ n) := by omega
    have hc2 : 64 ≤ n := by omega
    by_cases h64e : n = 64
    · subst h64e
      simp [u128.shr, u128.toNat]
      omega
    · have hc4 : 0 < n - 64 := by omega
      simp only [u128.shr, h0, hc1, hc2, hc4, if_false, if_true, ite_false,
        ite_true, if_neg, Nat.zero_shiftLeft, Nat.zero_mod, Nat.or_zero,
        Nat.zero_shiftRight, Nat.shiftRight_eq_div_pow, Nat.zero_mul,
        Nat.zero_div, Nat.zero_add, u128.toNat]
      rw [show (2 : Nat) ^ n = 2 ^ 64 * 2 ^ (n - 64) from by
          rw [← pow_add]; congr 1; omega,
        ← Nat.div_div_eq_div_mul,
        show (H * 2 ^ 64 + L) / 2 ^ 64 = H from by omega]

/-- Shifting left by exactly 64 bits moves the low limb into the high
limb. -/
lemma shl_64 (p : u128) : u128.shl p 64 = ⟨0, p.lo⟩ := by
  norm_num [u128.shl]

/-- C10: for every value and every shift count `n < 128`, the left shift
returns the numeric value times `2^n` reduced modulo `2^128` and the right
shift returns the floor of the numeric value divided by `2^n`; with the
saturation case these operators are total in the count. -/
theorem C10_shift_value (L H n : Nat) (hL : L < 2 ^ 64) (hH : H < 2 ^ 64)
    (hn : n < 128) :
    (u128.shl ⟨L, H⟩ n).toNat = (H * 2 ^ 64 + L) * 2 ^ n % 2 ^ 128 ∧
    (u128.shr ⟨L, H⟩ n).toNat = (H * 2 ^ 64 + L) / 2 ^ n :=
  ⟨shl_toNat L H n hL hH hn, shr_toNat L H n hL hH hn⟩

/-- Witness for C10 at `value(3, 5)` shifted by 7. -/
theorem C10_shift_value_witness :
    (u128.shl ⟨3, 5⟩ 7).toNat = (5 * 2 ^ 64 + 3) * 2 ^ 7 % 2 ^ 128 ∧
    (u128.shr ⟨3, 5⟩ 7).toNat = (5 * 2 ^ 64 + 3) / 2 ^ 7 :=
  C10_shift_value 3 5 7 (by norm_num) (by norm_num) (by norm_num)

/-- C3: 128×128→128 multiplication returns the unique 128-bit value
congruent to the full product modulo `2^128`; omitting the `hi*hi` partial
product loses nothing of the mod-`2^128` result. -/
theorem C3_mul128_mod (a b : u128)
    (halo : a.lo < 2 ^ 64) (hahi : a.hi < 2 ^ 64)
    (hblo : b.lo < 2 ^ 64) (hbhi : b.hi < 2 ^ 64) :
    (u128.mul a b).toNat = a.toNat * b.toNat % 2 ^ 128 := by
  have h1 : a.lo * b.lo ≤ (2 ^ 64 - 1) * (2 ^ 64 - 1) :=
    Nat.mul_le_mul (by omega) (by omega)
  have h2 : a.lo * b.hi ≤ (2 ^ 64 - 1) * (2 ^ 64 - 1) :=
    Nat.mul_le_mul (by omega) (by omega)
  have h3 : a.hi * b.lo ≤ (2 ^ 64 - 1) * (2 ^ 64 - 1) :=
    Nat.mul_le_mul (by omega) (by omega)
  have key : (a.hi * 2 ^ 64 + a.lo) * (b.hi * 2 ^ 64 + b.lo) =
      a.hi * b.hi * 2 ^ 128 + a.lo * b.hi * 2 ^ 64 +
        a.hi * b.lo * 2 ^ 64 + a.lo * b.lo := by
    ring
  simp only [u128.mul, mul64, mul64_impl, mul64_native, shl_64, u128.add,
    u128.toNat, key]
  split_ifs <;> omega

/-- Witness for C3 at the all-ones value squared. -/
theorem C3_mul128_mod_witness :
    (u128.mul ⟨2 ^ 64 - 1, 2 ^ 64 - 1⟩ ⟨2 ^ 64 - 1, 2 ^ 64 - 1⟩).toNat =
      (u128.mk (2 ^ 64 - 1) (2 ^ 64 - 1)).toNat *
        (u128.mk (2 ^ 64 - 1) (2 ^ 64 - 1)).toNat % 2 ^ 128 :=
  C3_mul128_mod ⟨2 ^ 64 - 1, 2 ^ 64 - 1⟩ ⟨2 ^ 64 - 1, 2 ^ 64 - 1⟩
    (by decide) (by decide) (by decide) (by decide)

/-- C4: 128×64→128 multiplication returns the product reduced modulo
`2^128`, discarding the high bits of `mul64(hi, word)`; it equals the
128×128 path with `other = value(word, 0)`, and the commutative friend
form agrees. -/
theorem C4_mulWord_mod (v : u128) (w : Nat)
    (hlo : v.lo < 2 ^ 64) (hhi : v.hi < 2 ^ 64) (hw : w < 2 ^ 64) :
    (u128.mulWord v w).toNat = v.toNat * w % 2 ^ 128 ∧
    u128.mulWord v w = u128.mul v ⟨w, 0⟩ ∧
    u128.wordMul w v = u128.mulWord v w := by
  have h1 : v.lo * w ≤ (2 ^ 64 - 1) * (2 ^ 64 - 1) :=
    Nat.mul_le_mul (by omega) (by omega)
  have h2 : v.hi * w ≤ (2 ^ 64 - 1) * (2 ^ 64 - 1) :=
    Nat.mul_le_mul (by omega) (by omega)
  have key : (v.hi * 2 ^ 64 + v.lo) * w =
      v.hi * w * 2 ^ 64 + v.lo * w := by
    ring
  refine ⟨?_, ?_, rfl⟩
  · simp only [u128.mulWord, mul64, mul64_impl, mul64_native, shl_64,
      u128.add, u128.toNat, key]
    split_ifs <;> omega
  · apply u128.ext <;>
      simp only [u128.mulWord, u128.mul, mul64, mul64_impl, mul64_native,
        shl_64, u128.add] <;>
      (try split_ifs) <;> omega

/-- Witness for C4 at the truncating input `value(0, 2^64-1) * 2`. -/
theorem C4_mulWord_mod_witness :
    (u128.mulWord ⟨0, 2 ^ 64 - 1⟩ 2).toNat =
      (u128.mk 0 (2 ^ 64 - 1)).toNat * 2 % 2 ^ 128 ∧
    u128.mulWord ⟨0, 2 ^ 64 - 1⟩ 2 = u128.mul ⟨0, 2 ^ 64 - 1⟩ ⟨2, 0⟩ ∧
    u128.wordMul 2 ⟨0, 2 ^ 64 - 1⟩ = u128.mulWord ⟨0, 2 ^ 64 - 1⟩ 2 :=
  C4_mulWord_mod ⟨0, 2 ^ 64 - 1⟩ 2 (by decide) (by decide) (by decide)

lemma hexPad16_length (x : Nat) : (hexPad16 x).length = 16 := by
  simp [hexPad16, String.length]

/-- C9: `to_string_hex` always returns exactly 34 characters — the prefix
`0x` then hi then lo as 16 zero-padded lowercase hexadecimal digits each;
stream insertion prints the same form, and `value(42, 0)` formats as
`0x0000000000000000000000000000002a`. -/
theorem C9_hex_format (v : u128) (hlo : v.lo < 2 ^ 64) (hhi : v.hi < 2 ^ 64) :
    (u128.to_string_hex v).length = 34 ∧
    u128.ostreamWrite v = u128.to_string_hex v ∧
    u128.to_string_hex ⟨42, 0⟩ = "0x0000000000000000000000000000002a" := by
  refine ⟨?_, rfl, by decide⟩
  simp only [u128.to_string_hex, String.length_append, hexPad16_length]
  decide

/-- Witness for C9 at `value(42, 0)`. -/
theorem C9_hex_format_witness :
    (u128.to_string_hex ⟨42, 0⟩).length = 34 ∧
    u128.ostreamWrite ⟨42, 0⟩ = u128.to_string_hex ⟨42, 0⟩ ∧
    u128.to_string_hex ⟨42, 0⟩ = "0x0000000000000000000000000000002a" :=
  C9_hex_format ⟨42, 0⟩ (by decide) (by decide)
